import Mathlib

/-!
Verification development for a Badger-backed Raft log store and stable
store.  The storage layer maps a numeric log index and arbitrary
byte-string keys onto a single ordered keyspace partitioned into two
namespaces ("logs" and "conf").  We model byte strings as lists of
naturals, the ordered engine as a key-sorted association list, and the
store operations (FirstIndex, LastIndex, GetLog, StoreLogs, DeleteRange,
Set, Get, SetUint64, GetUint64) as pure functions over that model,
translated from `utils.go` and `badger_store.go`.
-/

/-- Byte strings are lists of naturals; every byte the program writes is
below 256. -/
abbrev Bytes := List Nat

/-- The "logs" namespace bytes (`dbLogs = []byte("logs")`). -/
def dbLogs : Bytes := [108, 111, 103, 115]

/-- The "conf" namespace bytes (`dbConf = []byte("conf")`). -/
def dbConf : Bytes := [99, 111, 110, 102]

/-- Strict byte-lexicographic order on byte strings, the order Badger
keeps its keys in.  A proper extension sorts after its stem. -/
def lexLt : Bytes → Bytes → Bool
  | _, [] => false
  | [], _ :: _ => true
  | a :: as, b :: bs => decide (a < b) || (decide (a = b) && lexLt as bs)

/-- Reflexive byte-lexicographic order, defined from `lexLt` by
totality. -/
def lexLe (a b : Bytes) : Bool := !lexLt b a

/-- `uint64ToBytes` from `utils.go`: the 8-byte big-endian encoding
produced by `binary.BigEndian.PutUint64`. -/
def uint64ToBytes (u : Nat) : Bytes :=
  [u / 2 ^ 56 % 256, u / 2 ^ 48 % 256, u / 2 ^ 40 % 256, u / 2 ^ 32 % 256,
   u / 2 ^ 24 % 256, u / 2 ^ 16 % 256, u / 2 ^ 8 % 256, u % 256]

/-- `bytesToUint64` from `utils.go`: `binary.BigEndian.Uint64` combines
the first eight bytes, and panics (modelled by `none`) when the slice is
shorter than eight bytes. -/
def bytesToUint64 : Bytes → Option Nat
  | b0 :: b1 :: b2 :: b3 :: b4 :: b5 :: b6 :: b7 :: _ =>
      some (b0 * 2 ^ 56 + b1 * 2 ^ 48 + b2 * 2 ^ 40 + b3 * 2 ^ 32 +
        b4 * 2 ^ 24 + b5 * 2 ^ 16 + b6 * 2 ^ 8 + b7)
  | _ => none

/-- `addPrefix` from `utils.go`: concatenation of a namespace and a
logical key. -/
def addPrefix (pre key : Bytes) : Bytes := pre ++ key

/-- `End` from `utils.go`: copies the namespace bytes into a buffer one
byte longer and sets the final byte to `0xFF`. -/
def End (pre : Bytes) : Bytes := pre ++ [255]

theorem lexLt_irrefl (a : Bytes) : lexLt a a = false := by
  induction a with
  | nil => rfl
  | cons x xs ih => simp [lexLt, ih]

theorem lexLt_trans {a b c : Bytes} (hab : lexLt a b = true)
    (hbc : lexLt b c = true) : lexLt a c = true := by
  induction a generalizing b c with
  | nil =>
    cases c with
    | nil =>
      cases b with
      | nil => exact hab
      | cons y ys => simp [lexLt] at hbc
    | cons z zs => simp [lexLt]
  | cons x xs ih =>
    cases b with
    | nil => simp [lexLt] at hab
    | cons y ys =>
      cases c with
      | nil => simp [lexLt] at hbc
      | cons z zs =>
        simp only [lexLt, Bool.or_eq_true, Bool.and_eq_true,
          decide_eq_true_eq] at hab hbc ⊢
        rcases hab with h1 | ⟨h1, h1'⟩
        · rcases hbc with h2 | ⟨h2, h2'⟩
          · exact Or.inl (by omega)
          · exact Or.inl (by omega)
        · rcases hbc with h2 | ⟨h2, h2'⟩
          · exact Or.inl (by omega)
          · exact Or.inr ⟨by omega, ih h1' h2'⟩

theorem lexLt_asymm {a b : Bytes} (hab : lexLt a b = true) :
    lexLt b a = false := by
  induction a generalizing b with
  | nil =>
    cases b with
    | nil => exact rfl
    | cons y ys => rfl
  | cons x xs ih =>
    cases b with
    | nil => simp [lexLt] at hab
    | cons y ys =>
      simp only [lexLt, Bool.or_eq_true, Bool.and_eq_true,
        decide_eq_true_eq] at hab
      simp only [lexLt, Bool.or_eq_false_iff, Bool.and_eq_false_iff,
        decide_eq_false_iff_not]
      rcases hab with h | ⟨h, h'⟩
      · exact ⟨by omega, Or.inl (by omega)⟩
      · exact ⟨by omega, Or.inr (ih h')⟩

theorem lexLt_total {a b : Bytes} (hab : lexLt a b = false)
    (hba : lexLt b a = false) : a = b := by
  induction a generalizing b with
  | nil =>
    cases b with
    | nil => rfl
    | cons y ys => simp [lexLt] at hab
  | cons x xs ih =>
    cases b with
    | nil => simp [lexLt] at hba
    | cons y ys =>
      simp only [lexLt, Bool.or_eq_false_iff, Bool.and_eq_false_iff,
        decide_eq_false_iff_not] at hab hba
      obtain ⟨h1, h2⟩ := hab
      obtain ⟨h3, h4⟩ := hba
      have hxy : x = y := by omega
      subst hxy
      rcases h2 with h2 | h2
      · omega
      · rcases h4 with h4 | h4
        · omega
        · rw [ih h2 h4]

theorem lexLt_append_left (p a b : Bytes) :
    lexLt (p ++ a) (p ++ b) = lexLt a b := by
  induction p with
  | nil => rfl
  | cons x xs ih => simp [lexLt, ih]

theorem lexLt_append_zero (a b : Bytes) :
    lexLt b (a ++ [0]) = !lexLt a b := by
  induction a generalizing b with
  | nil =>
    cases b with
    | nil => rfl
    | cons x r => simp [lexLt]
  | cons y a' ih =>
    cases b with
    | nil => simp [lexLt]
    | cons x r =>
      simp only [List.cons_append, lexLt, ih]
      rcases Nat.lt_trichotomy x y with h | h | h
      · simp [h, Nat.ne_of_lt h, Nat.lt_asymm h, Ne.symm (Nat.ne_of_lt h)]
      · subst h
        simp [ih]
      · simp [Nat.lt_asymm h, h, (Nat.ne_of_lt h).symm, Nat.ne_of_lt h]

theorem lexLe_refl (a : Bytes) : lexLe a a = true := by
  simp [lexLe, lexLt_irrefl]

theorem lexLe_of_lexLt {a b : Bytes} (h : lexLt a b = true) :
    lexLe a b = true := by
  simp [lexLe, lexLt_asymm h]

theorem lexLt_of_not_lexLe {a b : Bytes} (h : lexLe a b = false) :
    lexLt b a = true := by
  simpa [lexLe] using h

theorem bytesToUint64_uint64ToBytes (u : Nat) (hu : u < 2 ^ 64) :
    bytesToUint64 (uint64ToBytes u) = some u := by
  simp only [uint64ToBytes, bytesToUint64, Option.some.injEq]
  omega

theorem uint64ToBytes_length (u : Nat) : (uint64ToBytes u).length = 8 := rfl

theorem uint64ToBytes_bytes_lt (u : Nat) :
    ∀ b ∈ uint64ToBytes u, b < 256 := by
  intro b hb
  simp only [uint64ToBytes, List.mem_cons, List.not_mem_nil, or_false] at hb
  rcases hb with h | h | h | h | h | h | h | h <;> subst h <;> omega

/-- Helper: big-endian digit lists, most significant byte first; used to
relate `uint64ToBytes` to numeric order. -/
def beDigits : Nat → Nat → Bytes
  | 0, _ => []
  | n + 1, u => u / 2 ^ (8 * n) % 256 :: beDigits n (u % 2 ^ (8 * n))

theorem beDigits_succ (n u : Nat) :
    beDigits (n + 1) u = u / 2 ^ (8 * n) % 256 :: beDigits n (u % 2 ^ (8 * n)) := rfl

theorem nat_lt_iff_div_lt (M a b : Nat) :
    a < b ↔ (a / M < b / M ∨ (a / M = b / M ∧ a % M < b % M)) := by
  have ha := Nat.div_add_mod a M
  have hb := Nat.div_add_mod b M
  constructor
  · intro h
    rcases Nat.lt_or_ge (a / M) (b / M) with h' | h'
    · exact Or.inl h'
    · have he : a / M = b / M :=
        Nat.le_antisymm (Nat.div_le_div_right (Nat.le_of_lt h)) h'
      rw [he] at ha
      obtain ⟨t, ht⟩ : ∃ t, M * (b / M) = t := ⟨_, rfl⟩
      rw [ht] at ha hb
      exact Or.inr ⟨he, by omega⟩
  · intro h
    rcases h with h' | ⟨h1, h2⟩
    · by_contra hc
      push_neg at hc
      have hd : b / M ≤ a / M := Nat.div_le_div_right hc
      omega
    · rw [h1] at ha
      obtain ⟨t, ht⟩ : ∃ t, M * (b / M) = t := ⟨_, rfl⟩
      rw [ht] at ha hb
      omega

theorem beDigits_lexLt (n : Nat) : ∀ i j : Nat, i < 2 ^ (8 * n) →
    j < 2 ^ (8 * n) → lexLt (beDigits n i) (beDigits n j) = decide (i < j) := by
  induction n with
  | zero =>
    intro i j hi hj
    simp only [Nat.mul_zero, Nat.pow_zero, Nat.lt_one_iff] at hi hj
    subst hi; subst hj
    rfl
  | succ n ih =>
    intro i j hi hj
    have hM : 0 < 2 ^ (8 * n) := Nat.pos_pow_of_pos _ (by omega)
    have hpow : 2 ^ (8 * (n + 1)) = 256 * 2 ^ (8 * n) := by
      rw [Nat.mul_succ, Nat.pow_add]
      ring
    have hdi : i / 2 ^ (8 * n) < 256 := by
      rw [Nat.div_lt_iff_lt_mul hM]
      omega
    have hdj : j / 2 ^ (8 * n) < 256 := by
      rw [Nat.div_lt_iff_lt_mul hM]
      omega
    simp only [beDigits, lexLt, Nat.mod_eq_of_lt hdi, Nat.mod_eq_of_lt hdj,
      ih (i % 2 ^ (8 * n)) (j % 2 ^ (8 * n)) (Nat.mod_lt _ hM) (Nat.mod_lt _ hM)]
    rw [Bool.eq_iff_iff]
    simp only [Bool.or_eq_true, Bool.and_eq_true, decide_eq_true_eq]
    exact (nat_lt_iff_div_lt (2 ^ (8 * n)) i j).symm

theorem uint64ToBytes_eq_beDigits (u : Nat) :
    uint64ToBytes u = beDigits 8 u := by
  rw [beDigits_succ, beDigits_succ, beDigits_succ, beDigits_succ, beDigits_succ,
    beDigits_succ, beDigits_succ, beDigits_succ]
  norm_num [uint64ToBytes, beDigits]
  refine ⟨?_, ?_, ?_, ?_, ?_, ?_⟩ <;> omega

theorem lexLt_uint64ToBytes (i j : Nat) (hi : i < 2 ^ 64) (hj : j < 2 ^ 64) :
    lexLt (uint64ToBytes i) (uint64ToBytes j) = decide (i < j) := by
  rw [uint64ToBytes_eq_beDigits i, uint64ToBytes_eq_beDigits j]
  exact beDigits_lexLt 8 i j hi hj

theorem uint64ToBytes_of_bytes (b0 b1 b2 b3 b4 b5 b6 b7 : Nat)
    (h0 : b0 < 256) (h1 : b1 < 256) (h2 : b2 < 256) (h3 : b3 < 256)
    (h4 : b4 < 256) (h5 : b5 < 256) (h6 : b6 < 256) (h7 : b7 < 256) :
    uint64ToBytes (b0 * 2 ^ 56 + b1 * 2 ^ 48 + b2 * 2 ^ 40 + b3 * 2 ^ 32 +
      b4 * 2 ^ 24 + b5 * 2 ^ 16 + b6 * 2 ^ 8 + b7) =
      [b0, b1, b2, b3, b4, b5, b6, b7] := by
  simp only [uint64ToBytes, List.cons.injEq, and_true]
  refine ⟨?_, ?_, ?_, ?_, ?_, ?_, ?_, ?_⟩ <;> omega

theorem uint64ToBytes_inj {i j : Nat} (hi : i < 2 ^ 64) (hj : j < 2 ^ 64)
    (h : uint64ToBytes i = uint64ToBytes j) : i = j := by
  rcases Nat.lt_trichotomy i j with hlt | he | hlt
  · have hx := lexLt_uint64ToBytes i j hi hj
    rw [h, lexLt_irrefl] at hx
    simp [hlt] at hx
  · exact he
  · have hx := lexLt_uint64ToBytes j i hj hi
    rw [h, lexLt_irrefl] at hx
    simp [hlt] at hx

/-- The engine key of a log record with the given index: the "logs"
namespace followed by the 8-byte big-endian index
(`addPrefix(dbLogs, uint64ToBytes(idx))`). -/
def logKey (i : Nat) : Bytes := addPrefix dbLogs (uint64ToBytes i)

/-- The engine key of a stable-store entry: the "conf" namespace
followed by the caller's key (`addPrefix(dbConf, k)`). -/
def confKey (k : Bytes) : Bytes := addPrefix dbConf k

/-- C1 (counterexample): the key `"logs" ++ [0xFF]` has `"logs"` as a
prefix yet does not sort strictly before `End("logs")` (they are equal),
and the longer key `"logs" ++ [0xFF, 0x00]` sorts strictly after
`End("logs")`, so the claimed contract fails as universally stated. -/
theorem c1_counterexample :
    dbLogs.isPrefixOf (dbLogs ++ [255]) = true ∧
    lexLt (dbLogs ++ [255]) (End dbLogs) = false ∧
    dbLogs.isPrefixOf (dbLogs ++ [255, 0]) = true ∧
    lexLt (End dbLogs) (dbLogs ++ [255, 0]) = true := by
  decide

/-- C1 (amended): every key that extends the namespace bytes `p` and
whose first byte after `p`, when present, is below the maximal byte
`0xFF` sorts strictly before `End(p) = p ++ [0xFF]`.  In particular the
contract holds for `p` itself and for every "logs" key whose top index
byte is not `0xFF`. -/
theorem c1_end_upper_bound_amended (p tl : Bytes)
    (h : tl = [] ∨ ∃ b rest, tl = b :: rest ∧ b < 255) :
    lexLt (p ++ tl) (End p) = true := by
  rcases h with h | ⟨b, rest, h, hb⟩
  · subst h
    show lexLt (p ++ []) (p ++ [255]) = true
    rw [lexLt_append_left]
    rfl
  · subst h
    show lexLt (p ++ b :: rest) (p ++ [255]) = true
    rw [lexLt_append_left]
    simp [lexLt, hb]

theorem c1_end_upper_bound_amended_witness :
    lexLt (dbLogs ++ [0, 7]) (End dbLogs) = true :=
  c1_end_upper_bound_amended dbLogs [0, 7] (Or.inr ⟨0, [7], rfl, by decide⟩)

/-- C5: the index codec round-trips exactly: `uint64ToBytes` produces an
8-byte big-endian slice and `bytesToUint64` reads the value back, for
every value in the uint64 domain. -/
theorem c5_index_codec_roundtrip (u : Nat) (hu : u < 2 ^ 64) :
    (uint64ToBytes u).length = 8 ∧ bytesToUint64 (uint64ToBytes u) = some u :=
  ⟨uint64ToBytes_length u, bytesToUint64_uint64ToBytes u hu⟩

theorem c5_index_codec_roundtrip_witness :
    (uint64ToBytes (2 ^ 64 - 1)).length = 8 ∧
    bytesToUint64 (uint64ToBytes (2 ^ 64 - 1)) = some (2 ^ 64 - 1) :=
  c5_index_codec_roundtrip (2 ^ 64 - 1) (by omega)

/-- C6: byte-lexicographic order on 8-byte big-endian encodings, and
hence on the derived "logs"-namespace engine keys, coincides with
numeric order on indices. -/
theorem c6_key_order_homomorphism (i j : Nat) (hi : i < 2 ^ 64)
    (hj : j < 2 ^ 64) :
    (lexLt (uint64ToBytes i) (uint64ToBytes j) = true ↔ i < j) ∧
    (lexLt (logKey i) (logKey j) = true ↔ i < j) := by
  have h := lexLt_uint64ToBytes i j hi hj
  constructor
  · rw [h]
    exact decide_eq_true_iff
  · show lexLt (dbLogs ++ uint64ToBytes i) (dbLogs ++ uint64ToBytes j) = true ↔ i < j
    rw [lexLt_append_left, h]
    exact decide_eq_true_iff

theorem c6_key_order_homomorphism_witness :
    (lexLt (uint64ToBytes 3) (uint64ToBytes 5) = true ↔ 3 < 5) ∧
    (lexLt (logKey 3) (logKey 5) = true ↔ 3 < 5) :=
  c6_key_order_homomorphism 3 5 (by omega) (by omega)

/-- The engine state: an association list of (key, value) entries kept
in strictly ascending byte-lexicographic key order, the order Badger
iterates keys in. -/
abbrev Store := List (Bytes × Bytes)

/-- Point lookup inside a transaction (`txn.Get`): `none` when the key
is absent. -/
def getKV (k : Bytes) : Store → Option Bytes
  | [] => none
  | e :: rest => if e.1 = k then some e.2 else getKV k rest

/-- Committing `txn.Set(k, v)`: order-preserving insert-or-replace. -/
def setKV (k v : Bytes) : Store → Store
  | [] => [(k, v)]
  | e :: rest =>
    if lexLt k e.1 then (k, v) :: e :: rest
    else if k = e.1 then (k, v) :: rest
    else e :: setKV k v rest

theorem getKV_setKV_same (k v : Bytes) (s : Store) :
    getKV k (setKV k v s) = some v := by
  induction s with
  | nil => simp [setKV, getKV]
  | cons e rest ih =>
    by_cases h1 : lexLt k e.1
    · simp [setKV, h1, getKV]
    · by_cases h2 : k = e.1
      · simp [setKV, h1, h2, getKV, lexLt_irrefl]
      · simp [setKV, h1, h2, getKV, Ne.symm h2, ih]

theorem getKV_setKV_other (k k' v : Bytes) (s : Store) (h : k' ≠ k) :
    getKV k' (setKV k v s) = getKV k' s := by
  induction s with
  | nil => simp [setKV, getKV, Ne.symm h]
  | cons e rest ih =>
    by_cases h1 : lexLt k e.1
    · simp [setKV, h1, getKV, Ne.symm h]
    · by_cases h2 : k = e.1
      · subst h2
        simp [setKV, h1, lexLt_irrefl, getKV, Ne.symm h]
      · simp [setKV, h1, h2, getKV, ih]

/-- `Set` from `badger_store.go`: a single-write transaction under the
"conf" namespace, committed atomically. -/
def stableSet (k v : Bytes) (s : Store) : Store := setKV (confKey k) v s

/-- `Get` from `badger_store.go`: point lookup under the "conf"
namespace; `none` models `ErrKeyNotFound`, returned both when the key
is absent and when the stored value is empty (`item.ValueCopy` yields a
nil slice for an empty value).  The defensive copy
`append([]byte(nil), val...)` is the identity on values in this
functional model. -/
def stableGet (k : Bytes) (s : Store) : Option Bytes :=
  match getKV (confKey k) s with
  | none => none
  | some v => if v = [] then none else some v

/-- `SetUint64` from `badger_store.go`. -/
def stableSetUint64 (k : Bytes) (v : Nat) (s : Store) : Store :=
  stableSet k (uint64ToBytes v) s

/-- Outcome of `GetUint64`: `panicked` models the runtime panic raised
by `binary.BigEndian.Uint64` on a slice shorter than eight bytes. -/
inductive U64Result where
  | ok (n : Nat)
  | keyNotFound
  | panicked
deriving DecidableEq

/-- `GetUint64` from `badger_store.go`: `Get` followed by
`bytesToUint64`. -/
def stableGetUint64 (k : Bytes) (s : Store) : U64Result :=
  match stableGet k s with
  | none => U64Result.keyNotFound
  | some v =>
    match bytesToUint64 v with
    | none => U64Result.panicked
    | some n => U64Result.ok n

theorem get_set_same (k v : Bytes) (s : Store) (hv : v ≠ []) :
    stableGet k (stableSet k v s) = some v := by
  unfold stableGet stableSet
  rw [getKV_setKV_same]
  simp [hv]

/-- C7 (counterexample): storing the empty value under a key makes the
subsequent `Get` fail with `ErrKeyNotFound` instead of succeeding, so
the round-trip does not hold for every byte-string value. -/
theorem c7_counterexample : stableGet [120] (stableSet [120] [] []) = none := by decide

/-- C7 (amended): for every key and every non-empty value, `Get` after
`Set` succeeds with a byte-identical value (an empty value is reported
as `ErrKeyNotFound` by the `Get` contract; the defensive copy is an
aliasing property invisible to this functional model). -/
theorem c7_kv_roundtrip_amended (k v : Bytes) (s : Store) (hv : v ≠ []) :
    stableGet k (stableSet k v s) = some v :=
  get_set_same k v s hv

theorem c7_kv_roundtrip_amended_witness :
    stableGet [104] (stableSet [104] [119, 111] []) = some [119, 111] :=
  c7_kv_roundtrip_amended [104] [119, 111] [] (by decide)

theorem bytesToUint64_short {v : Bytes} (h : v.length < 8) :
    bytesToUint64 v = none := by
  rcases v with _ | ⟨a, _ | ⟨b, _ | ⟨c, _ | ⟨d, _ | ⟨e, _ | ⟨f, _ | ⟨g, _ | ⟨h8, t⟩⟩⟩⟩⟩⟩⟩⟩
  · rfl
  · rfl
  · rfl
  · rfl
  · rfl
  · rfl
  · rfl
  · rfl
  · simp at h
    omega

/-- C10: `GetUint64` on a key holding a non-empty value shorter than
eight bytes reaches `binary.BigEndian.Uint64` with a short slice and
panics instead of returning an error. -/
theorem c10_getUint64_short_value_panics (k v : Bytes) (s : Store)
    (hne : v ≠ []) (hlen : v.length < 8) :
    stableGetUint64 k (stableSet k v s) = U64Result.panicked := by
  unfold stableGetUint64
  rw [get_set_same k v s hne]
  simp [bytesToUint64_short hlen]

theorem c10_getUint64_short_value_panics_witness :
    stableGetUint64 [120] (stableSet [120] [1, 2, 3] []) = U64Result.panicked :=
  c10_getUint64_short_value_panics [120] [1, 2, 3] [] (by decide) (by decide)

/-- A raft log record: the externally assigned index and an opaque
payload the storage layer never inspects. -/
structure LogRecord where
  index : Nat
  data : Bytes
deriving DecidableEq

/-- The write loop of `StoreLogs`: for each record, encode it via the
external msgpack codec (abstracted as `enc`, `none` modelling an encode
error) and buffer `txn.Set(addPrefix(dbLogs, uint64ToBytes(log.Index)),
val)`; an encode error aborts the transaction with nothing applied. -/
def storeLogsTxn (enc : LogRecord → Option Bytes) :
    List LogRecord → List (Bytes × Bytes) → Option (List (Bytes × Bytes))
  | [], buf => some buf
  | r :: rest, buf =>
    match enc r with
    | none => none
    | some v => storeLogsTxn enc rest (buf ++ [(logKey r.index, v)])

/-- `StoreLogs` from `badger_store.go`: run the write loop in one
transaction; on success commit applies every buffered write, on error
the transaction is discarded (`none`) and the store is untouched. -/
def storeLogs (enc : LogRecord → Option Bytes) (logs : List LogRecord)
    (s : Store) : Option Store :=
  match storeLogsTxn enc logs [] with
  | none => none
  | some buf => some (buf.foldl (fun st e => setKV e.1 e.2 st) s)

/-- `StoreLog` from `badger_store.go` is `StoreLogs` of the singleton. -/
def storeLog (enc : LogRecord → Option Bytes) (r : LogRecord) (s : Store) :
    Option Store :=
  storeLogs enc [r] s

/-- The per-record buffered pairs of a fully successful write loop. -/
def encPairs (enc : LogRecord → Option Bytes) : List LogRecord → List (Bytes × Bytes)
  | [] => []
  | r :: rest =>
    match enc r with
    | none => []
    | some v => (logKey r.index, v) :: encPairs enc rest

theorem storeLogsTxn_none_iff (enc : LogRecord → Option Bytes)
    (logs : List LogRecord) : ∀ buf,
    (storeLogsTxn enc logs buf = none ↔ ∃ r ∈ logs, enc r = none) := by
  induction logs with
  | nil => intro buf; simp [storeLogsTxn]
  | cons r rest ih =>
    intro buf
    cases h : enc r with
    | none => simp [storeLogsTxn, h]
    | some v =>
      simp only [storeLogsTxn, h, ih, List.mem_cons]
      constructor
      · rintro ⟨r', hr', he⟩
        exact ⟨r', Or.inr hr', he⟩
      · rintro ⟨r', hr' | hr', he⟩
        · subst hr'; rw [h] at he; cases he
        · exact ⟨r', hr', he⟩

theorem storeLogsTxn_some (enc : LogRecord → Option Bytes)
    (logs : List LogRecord) (hall : ∀ r ∈ logs, (enc r).isSome) : ∀ buf,
    storeLogsTxn enc logs buf = some (buf ++ encPairs enc logs) := by
  induction logs with
  | nil => intro buf; simp [storeLogsTxn, encPairs]
  | cons r rest ih =>
    intro buf
    have hr : (enc r).isSome := hall r (List.mem_cons_self r rest)
    cases h : enc r with
    | none => rw [h] at hr; cases hr
    | some v =>
      have ht := ih (fun r' hr' => hall r' (List.mem_cons_of_mem r hr')) (buf ++ [(logKey r.index, v)])
      simp only [storeLogsTxn, h, encPairs, ht, List.append_assoc, List.singleton_append]

theorem encPairs_keys (enc : LogRecord → Option Bytes) (logs : List LogRecord)
    (hall : ∀ r ∈ logs, (enc r).isSome) :
    (encPairs enc logs).map (fun p => p.1) = logs.map (fun r => logKey r.index) := by
  induction logs with
  | nil => rfl
  | cons r rest ih =>
    have hr : (enc r).isSome := hall r (List.mem_cons_self r rest)
    cases h : enc r with
    | none => rw [h] at hr; cases hr
    | some v =>
      simp only [encPairs, h, List.map_cons]
      rw [ih (fun r' hr' => hall r' (List.mem_cons_of_mem r hr'))]

theorem encPairs_mem (enc : LogRecord → Option Bytes) (logs : List LogRecord)
    (hall : ∀ r' ∈ logs, (enc r').isSome)
    {r : LogRecord} {v : Bytes} (hr : r ∈ logs) (he : enc r = some v) :
    (logKey r.index, v) ∈ encPairs enc logs := by
  induction logs with
  | nil => cases hr
  | cons r' rest ih =>
    rcases List.mem_cons.mp hr with h | h
    · subst h
      simp [encPairs, he]
    · cases h' : enc r' with
      | none =>
        have := hall r' (List.mem_cons_self r' rest)
        rw [h'] at this
        cases this
      | some w =>
        simp only [encPairs, h', List.mem_cons]
        exact Or.inr (ih (fun q hq => hall q (List.mem_cons_of_mem r' hq)) h)

theorem getKV_foldl_not_mem (pairs : List (Bytes × Bytes)) (k : Bytes) :
    ∀ s : Store, (∀ p ∈ pairs, p.1 ≠ k) →
    getKV k (pairs.foldl (fun st e => setKV e.1 e.2 st) s) = getKV k s := by
  induction pairs with
  | nil => intro s _; rfl
  | cons p rest ih =>
    intro s hp
    simp only [List.foldl_cons]
    rw [ih (setKV p.1 p.2 s) (fun q hq => hp q (List.mem_cons_of_mem p hq))]
    exact getKV_setKV_other p.1 k p.2 s (Ne.symm (hp p (List.mem_cons_self p rest)))

theorem getKV_foldl_unique (pairs : List (Bytes × Bytes)) (k : Bytes)
    (v : Bytes) : ∀ s : Store, (k, v) ∈ pairs →
    (pairs.map (fun p => p.1)).Nodup →
    getKV k (pairs.foldl (fun st e => setKV e.1 e.2 st) s) = some v := by
  induction pairs with
  | nil => intro s h _; cases h
  | cons p rest ih =>
    intro s hmem hnd
    simp only [List.map_cons, List.nodup_cons, List.mem_map] at hnd
    rcases List.mem_cons.mp hmem with h | h
    · subst h
      simp only [List.foldl_cons]
      rw [getKV_foldl_not_mem rest k (setKV k v s) ?hne]
      · exact getKV_setKV_same k v s
      · intro q hq hqk
        exact hnd.1 ⟨q, hq, hqk⟩
    · exact ih (setKV p.1 p.2 s) h hnd.2

/-- C4: StoreLogs is all-or-nothing.  With distinct in-range indices:
if every record encodes, the call succeeds and every record is visible
under its derived key while unrelated keys are untouched; if any encode
step fails, the call returns the discarded-transaction outcome `none`
and, the model being functional, the caller's store is exactly the
store from before the call. -/
theorem c4_storeLogs_atomicity (enc : LogRecord → Option Bytes)
    (logs : List LogRecord) (s : Store)
    (hidx : ∀ r ∈ logs, r.index < 2 ^ 64)
    (hnodup : (logs.map (fun r => r.index)).Nodup) :
    (storeLogs enc logs s = none ↔ ∃ r ∈ logs, enc r = none) ∧
    (∀ s', storeLogs enc logs s = some s' →
      (∀ r ∈ logs, getKV (logKey r.index) s' = enc r) ∧
      (∀ k, (∀ r ∈ logs, k ≠ logKey r.index) → getKV k s' = getKV k s)) := by
  constructor
  · unfold storeLogs
    cases h : storeLogsTxn enc logs [] with
    | none => simpa using (storeLogsTxn_none_iff enc logs []).mp h
    | some buf =>
      simp only [reduceCtorEq, false_iff]
      intro hc
      rw [(storeLogsTxn_none_iff enc logs []).mpr hc] at h
      cases h
  · intro s' hs'
    have hall : ∀ r ∈ logs, (enc r).isSome := by
      intro r hr
      cases he : enc r with
      | none =>
        exfalso
        unfold storeLogs at hs'
        rw [(storeLogsTxn_none_iff enc logs []).mpr ⟨r, hr, he⟩] at hs'
        cases hs'
      | some v => rfl
    have htxn := storeLogsTxn_some enc logs hall []
    unfold storeLogs at hs'
    rw [htxn] at hs'
    simp only [List.nil_append, Option.some.injEq] at hs'
    subst hs'
    have hkeys := encPairs_keys enc logs hall
    have hknd : ((encPairs enc logs).map (fun p => p.1)).Nodup := by
      rw [hkeys]
      have : (logs.map (fun r => logKey r.index)) =
          (logs.map (fun r => r.index)).map (fun i => logKey i) := by
        rw [List.map_map]; rfl
      rw [this]
      refine List.Nodup.map_on ?_ hnodup
      intro x hx y hy hxy
      have hx' : x < 2 ^ 64 := by
        rcases List.mem_map.mp hx with ⟨r, hr, hrx⟩
        subst hrx; exact hidx r hr
      have hy' : y < 2 ^ 64 := by
        rcases List.mem_map.mp hy with ⟨r, hr, hry⟩
        subst hry; exact hidx r hr
      have : uint64ToBytes x = uint64ToBytes y :=
        List.append_cancel_left (hxy : dbLogs ++ _ = dbLogs ++ _)
      exact uint64ToBytes_inj hx' hy' this
    constructor
    · intro r hr
      have hrs : (enc r).isSome := hall r hr
      cases he : enc r with
      | none => rw [he] at hrs; cases hrs
      | some v =>
        exact getKV_foldl_unique (encPairs enc logs) (logKey r.index) v s
          (encPairs_mem enc logs hall hr he) hknd
    · intro k hk
      refine getKV_foldl_not_mem (encPairs enc logs) k s ?_
      intro p hp
      have : p.1 ∈ (encPairs enc logs).map (fun q => q.1) := List.mem_map_of_mem _ hp
      rw [hkeys] at this
      rcases List.mem_map.mp this with ⟨r, hr, hrk⟩
      intro hpk
      exact hk r hr (by rw [← hpk, hrk])

theorem c4_storeLogs_atomicity_witness :
    (storeLogs (fun r => some r.data) [⟨1, [10]⟩, ⟨2, [20]⟩] [] = none ↔
      ∃ r ∈ [(⟨1, [10]⟩ : LogRecord), ⟨2, [20]⟩], (fun r => some r.data) r = none) ∧
    (∀ s', storeLogs (fun r => some r.data) [⟨1, [10]⟩, ⟨2, [20]⟩] [] = some s' →
      (∀ r ∈ [(⟨1, [10]⟩ : LogRecord), ⟨2, [20]⟩],
        getKV (logKey r.index) s' = (fun r => some r.data) r) ∧
      (∀ k, (∀ r ∈ [(⟨1, [10]⟩ : LogRecord), ⟨2, [20]⟩], k ≠ logKey r.index) →
        getKV k s' = getKV k [])) :=
  c4_storeLogs_atomicity (fun r => some r.data) [⟨1, [10]⟩, ⟨2, [20]⟩] []
    (by decide) (by decide)

/-- Outcome of the engine read inside `GetLog`: the key was found with a
value, the key was absent (`badger.ErrKeyNotFound` from `txn.Get`), or
the engine failed (any other `txn.Get` error, or a `ValueCopy`
error). -/
inductive ReadOutcome where
  | found (v : Bytes)
  | absent
  | engineFail
deriving DecidableEq

/-- Result of `GetLog`: a decoded record, `raft.ErrLogNotFound`, or the
verbatim error of the external msgpack decoder. -/
inductive GetLogRes where
  | ok (r : LogRecord)
  | logNotFound
  | decodeErr
deriving DecidableEq

/-- The error discrimination of `GetLog` from `badger_store.go`: any
`txn.Get` error and any `ValueCopy` failure or nil value is reported as
`raft.ErrLogNotFound`; a non-empty value is handed to `DecodeMsgPack`
(abstracted as `dec`) whose outcome is returned verbatim. -/
def getLogFrom (dec : Bytes → Option LogRecord) : ReadOutcome → GetLogRes
  | ReadOutcome.absent => GetLogRes.logNotFound
  | ReadOutcome.engineFail => GetLogRes.logNotFound
  | ReadOutcome.found v =>
    if v = [] then GetLogRes.logNotFound
    else
      match dec v with
      | none => GetLogRes.decodeErr
      | some r => GetLogRes.ok r

/-- The healthy-engine read of the log record at index `i`:
`txn.Get(addPrefix(dbLogs, uint64ToBytes(idx)))`. -/
def readLog (i : Nat) (s : Store) : ReadOutcome :=
  match getKV (logKey i) s with
  | none => ReadOutcome.absent
  | some v => ReadOutcome.found v

/-- `GetLog` from `badger_store.go` against a healthy engine. -/
def getLog (dec : Bytes → Option LogRecord) (i : Nat) (s : Store) : GetLogRes :=
  getLogFrom dec (readLog i s)

/-- C8 (counterexample): a failing engine read inside `GetLog` is
reported as `raft.ErrLogNotFound`, indistinguishable from an absent
record, instead of being surfaced verbatim. -/
theorem c8_counterexample :
    getLogFrom (fun v => some ⟨0, v⟩) ReadOutcome.engineFail =
      GetLogRes.logNotFound ∧
    getLogFrom (fun v => some ⟨0, v⟩) ReadOutcome.engineFail =
      getLogFrom (fun v => some ⟨0, v⟩) ReadOutcome.absent :=
  ⟨rfl, rfl⟩

/-- C8 (amended): `GetLog` reports `raft.ErrLogNotFound` exactly when
the record is absent, the stored value is empty, or the engine read
fails (engine failures are collapsed into NotFound, not surfaced
verbatim); a non-empty stored value is decoded and the decoder's
outcome — success or error — is returned verbatim. -/
theorem c8_getLog_error_discrimination_amended
    (dec : Bytes → Option LogRecord) (ro : ReadOutcome) :
    (getLogFrom dec ro = GetLogRes.logNotFound ↔
      (ro = ReadOutcome.absent ∨ ro = ReadOutcome.engineFail ∨
        ro = ReadOutcome.found [])) ∧
    (∀ v r, v ≠ [] → dec v = some r →
      getLogFrom dec (ReadOutcome.found v) = GetLogRes.ok r) ∧
    (∀ v, v ≠ [] → dec v = none →
      getLogFrom dec (ReadOutcome.found v) = GetLogRes.decodeErr) := by
  refine ⟨?_, ?_, ?_⟩
  · cases ro with
    | absent => simp [getLogFrom]
    | engineFail => simp [getLogFrom]
    | found v =>
      by_cases hv : v = []
      · subst hv; simp [getLogFrom]
      · cases hd : dec v with
        | none => simp [getLogFrom, hv, hd]
        | some r => simp [getLogFrom, hv, hd]
  · intro v r hv hd
    simp [getLogFrom, hv, hd]
  · intro v hv hd
    simp [getLogFrom, hv, hd]

theorem c8_getLog_error_discrimination_amended_witness :
    (getLogFrom (fun v => some ⟨0, v⟩) (ReadOutcome.found [7]) =
      GetLogRes.logNotFound ↔
      (ReadOutcome.found [7] = ReadOutcome.absent ∨
        ReadOutcome.found [7] = ReadOutcome.engineFail ∨
        ReadOutcome.found [7] = ReadOutcome.found [])) ∧
    (∀ v r, v ≠ [] → (fun v => some (⟨0, v⟩ : LogRecord)) v = some r →
      getLogFrom (fun v => some ⟨0, v⟩) (ReadOutcome.found v) = GetLogRes.ok r) ∧
    (∀ v, v ≠ [] → (fun v => some (⟨0, v⟩ : LogRecord)) v = none →
      getLogFrom (fun v => some ⟨0, v⟩) (ReadOutcome.found v) = GetLogRes.decodeErr) :=
  c8_getLog_error_discrimination_amended (fun v => some ⟨0, v⟩) (ReadOutcome.found [7])

/-- Recognizer for engine keys of the "logs" namespace: the namespace
bytes followed by exactly eight valid bytes. -/
def isLogKeyB (k : Bytes) : Bool :=
  dbLogs.isPrefixOf k && decide (k.length = 12) &&
    (k.drop 4).all (fun b => decide (b < 256))

/-- Recognizer for engine keys of the "conf" namespace. -/
def isConfKeyB (k : Bytes) : Bool := dbConf.isPrefixOf k

/-- Adjacent strict ordering of the engine's key sequence. -/
def keysSortedB : Store → Bool
  | [] => true
  | [_] => true
  | a :: b :: rest => lexLt a.1 b.1 && keysSortedB (b :: rest)

/-- A well-formed engine state: keys strictly ascending in
byte-lexicographic order and every key belonging to one of the two
namespaces. -/
def StoreWF (s : Store) : Prop :=
  keysSortedB s = true ∧ ∀ e ∈ s, isLogKeyB e.1 = true ∨ isConfKeyB e.1 = true

/-- The index decoded from a "logs" engine key (`key[len(dbLogs):]`). -/
def idxKey (k : Bytes) : Nat := (bytesToUint64 (k.drop 4)).getD 0

/-- `FirstIndex` from `badger_store.go`: a forward iterator seeks to the
first key at or after the namespace bytes; if it carries the namespace
the decoded index is returned, otherwise the scan is over and the
result is 0.  `none` models a decode panic, impossible on well-formed
states. -/
def firstIndex (s : Store) : Option Nat :=
  match s.dropWhile (fun e => lexLt e.1 dbLogs) with
  | [] => some 0
  | e :: _ =>
    if dbLogs.isPrefixOf e.1 then bytesToUint64 (e.1.drop 4) else some 0

/-- `LastIndex` from `badger_store.go`: a reverse iterator seeks to the
largest key at or before `End(dbLogs)`; if that key carries the
namespace the decoded index is returned, otherwise 0. -/
def lastIndex (s : Store) : Option Nat :=
  match (s.takeWhile (fun e => lexLe e.1 (End dbLogs))).getLast? with
  | none => some 0
  | some e =>
    if dbLogs.isPrefixOf e.1 then bytesToUint64 (e.1.drop 4) else some 0

/-- The indices of the log records present in a store, in key order. -/
def logIndices (s : Store) : List Nat :=
  (s.filter (fun e => isLogKeyB e.1)).map (fun e => idxKey e.1)

theorem keysSortedB_pairwise {s : Store} (h : keysSortedB s = true) :
    s.Pairwise (fun a b => lexLt a.1 b.1 = true) := by
  induction s with
  | nil => exact List.Pairwise.nil
  | cons a rest ih =>
    cases rest with
    | nil => simp
    | cons b rest' =>
      simp only [keysSortedB, Bool.and_eq_true] at h
      have hp := ih h.2
      refine List.pairwise_cons.mpr ⟨?_, hp⟩
      intro x hx
      rcases List.mem_cons.mp hx with hx | hx
      · subst hx; exact h.1
      · exact lexLt_trans h.1 (List.rel_of_pairwise_cons hp hx)

theorem dropWhile_eq_filter_sorted (p : Bytes × Bytes → Bool) (s : Store)
    (hs : s.Pairwise (fun a b => lexLt a.1 b.1 = true))
    (hdc : ∀ a b : Bytes × Bytes, lexLt a.1 b.1 = true → p b = true → p a = true) :
    s.dropWhile p = s.filter (fun e => !(p e)) := by
  induction s with
  | nil => rfl
  | cons e rest ih =>
    by_cases hp : p e = true
    · simp only [List.dropWhile_cons, List.filter_cons, hp, Bool.not_true,
        if_true]
      exact ih (List.Pairwise.of_cons hs)
    · rw [Bool.not_eq_true] at hp
      simp only [List.dropWhile_cons, List.filter_cons, hp, Bool.not_false,
        Bool.false_eq_true, reduceIte]
      congr 1
      refine (List.filter_eq_self.mpr ?_).symm
      intro x hx
      have hrel := List.rel_of_pairwise_cons hs hx
      rw [Bool.not_eq_true']
      by_contra hc
      rw [Bool.not_eq_false] at hc
      rw [hdc e x hrel hc] at hp
      cases hp

theorem takeWhile_eq_filter_sorted (p : Bytes × Bytes → Bool) (s : Store)
    (hs : s.Pairwise (fun a b => lexLt a.1 b.1 = true))
    (hdc : ∀ a b : Bytes × Bytes, lexLt a.1 b.1 = true → p b = true → p a = true) :
    s.takeWhile p = s.filter p := by
  induction s with
  | nil => rfl
  | cons e rest ih =>
    by_cases hp : p e = true
    · simp only [List.takeWhile_cons, List.filter_cons, hp, if_true]
      rw [ih (List.Pairwise.of_cons hs)]
    · rw [Bool.not_eq_true] at hp
      simp only [List.takeWhile_cons, List.filter_cons, hp, if_false]
      refine (List.filter_eq_nil_iff.mpr ?_).symm
      intro x hx
      have hrel := List.rel_of_pairwise_cons hs hx
      intro hc
      rw [hdc e x hrel hc] at hp
      cases hp

theorem isPrefixOf_exists {p k : Bytes} (h : p.isPrefixOf k = true) :
    ∃ t, k = p ++ t := by
  induction p generalizing k with
  | nil => exact ⟨k, rfl⟩
  | cons x p' ih =>
    cases k with
    | nil => simp [List.isPrefixOf] at h
    | cons y k' =>
      simp only [List.isPrefixOf, Bool.and_eq_true, beq_iff_eq] at h
      obtain ⟨t, ht⟩ := ih h.2
      exact ⟨t, by rw [h.1, ht]; rfl⟩

theorem isPrefixOf_append (p t : Bytes) : p.isPrefixOf (p ++ t) = true := by
  induction p with
  | nil => cases t <;> rfl
  | cons x p' ih => simp [List.isPrefixOf, ih]

theorem conf_ne_log (w z : Bytes) : dbConf ++ w ≠ dbLogs ++ z := by
  intro h
  have := congrArg (fun l => l.head?) h
  simp [dbConf, dbLogs] at this

theorem conf_lt_logs (w z : Bytes) : lexLt (dbConf ++ w) (dbLogs ++ z) = true := by
  simp [dbConf, dbLogs, lexLt]

theorem eight_bytes_cases (r : Bytes) (hr : r.length = 8) :
    ∃ b0 b1 b2 b3 b4 b5 b6 b7, r = [b0, b1, b2, b3, b4, b5, b6, b7] := by
  rcases r with _ | ⟨a, _ | ⟨b, _ | ⟨c, _ | ⟨d, _ | ⟨e, _ | ⟨f, _ | ⟨g, _ | ⟨h8, t⟩⟩⟩⟩⟩⟩⟩⟩ <;>
    simp only [List.length] at hr
  · omega
  · omega
  · omega
  · omega
  · omega
  · omega
  · omega
  · omega
  · have ht : t = [] := List.length_eq_zero.mp (by omega)
    subst ht
    exact ⟨a, b, c, d, e, f, g, h8, rfl⟩

theorem logKey_def (i : Nat) : logKey i = dbLogs ++ uint64ToBytes i := rfl

theorem logKey_drop (i : Nat) : (logKey i).drop 4 = uint64ToBytes i := rfl

theorem isLogKeyB_iff {k : Bytes} :
    isLogKeyB k = true ↔ ∃ i, i < 2 ^ 64 ∧ k = logKey i := by
  constructor
  · intro h
    simp only [isLogKeyB, Bool.and_eq_true, decide_eq_true_eq,
      List.all_eq_true] at h
    obtain ⟨⟨hpre, hlen⟩, hall⟩ := h
    obtain ⟨t, ht⟩ := isPrefixOf_exists hpre
    subst ht
    have htl : t.length = 8 := by
      simp [dbLogs] at hlen
      omega
    obtain ⟨b0, b1, b2, b3, b4, b5, b6, b7, hb⟩ := eight_bytes_cases t htl
    subst hb
    have hdrop : (dbLogs ++ [b0, b1, b2, b3, b4, b5, b6, b7]).drop 4 =
        [b0, b1, b2, b3, b4, b5, b6, b7] := rfl
    rw [hdrop] at hall
    have h0 : b0 < 256 := by simpa using hall b0 (by simp)
    have h1 : b1 < 256 := by simpa using hall b1 (by simp)
    have h2 : b2 < 256 := by simpa using hall b2 (by simp)
    have h3 : b3 < 256 := by simpa using hall b3 (by simp)
    have h4 : b4 < 256 := by simpa using hall b4 (by simp)
    have h5 : b5 < 256 := by simpa using hall b5 (by simp)
    have h6 : b6 < 256 := by simpa using hall b6 (by simp)
    have h7 : b7 < 256 := by simpa using hall b7 (by simp)
    refine ⟨b0 * 2 ^ 56 + b1 * 2 ^ 48 + b2 * 2 ^ 40 + b3 * 2 ^ 32 +
      b4 * 2 ^ 24 + b5 * 2 ^ 16 + b6 * 2 ^ 8 + b7, by omega, ?_⟩
    rw [logKey_def, uint64ToBytes_of_bytes b0 b1 b2 b3 b4 b5 b6 b7
      h0 h1 h2 h3 h4 h5 h6 h7]
  · rintro ⟨i, hi, rfl⟩
    simp only [isLogKeyB, logKey_def, Bool.and_eq_true, decide_eq_true_eq,
      List.all_eq_true]
    refine ⟨⟨isPrefixOf_append dbLogs (uint64ToBytes i), ?_⟩, ?_⟩
    · simp [dbLogs, uint64ToBytes]
    · intro b hb
      have : b < 256 := uint64ToBytes_bytes_lt i b (by
        simpa using hb)
      simpa using this

theorem idxKey_logKey (i : Nat) (hi : i < 2 ^ 64) : idxKey (logKey i) = i := by
  rw [idxKey, logKey_drop, bytesToUint64_uint64ToBytes i hi]
  rfl

theorem lexLt_logKey (i j : Nat) (hi : i < 2 ^ 64) (hj : j < 2 ^ 64) :
    lexLt (logKey i) (logKey j) = decide (i < j) := by
  rw [logKey_def, logKey_def, lexLt_append_left,
    lexLt_uint64ToBytes i j hi hj]

theorem logKey_inj {i j : Nat} (hi : i < 2 ^ 64) (hj : j < 2 ^ 64)
    (h : logKey i = logKey j) : i = j :=
  uint64ToBytes_inj hi hj (List.append_cancel_left h)

theorem lexLt_nil_right (t : Bytes) : lexLt t [] = false := by
  cases t <;> rfl

theorem logs_key_not_lt_dbLogs (t : Bytes) : lexLt (dbLogs ++ t) dbLogs = false := by
  have h := lexLt_append_left dbLogs t []
  rw [List.append_nil] at h
  rw [h, lexLt_nil_right]

theorem conf_lt_dbLogs (w : Bytes) : lexLt (dbConf ++ w) dbLogs = true := by
  have := conf_lt_logs w []
  rwa [List.append_nil] at this

theorem isLogKeyB_conf_false (w : Bytes) : isLogKeyB (dbConf ++ w) = false := by
  cases hx : isLogKeyB (dbConf ++ w) with
  | false => rfl
  | true =>
    rcases isLogKeyB_iff.mp hx with ⟨i, hi, heq⟩
    exact absurd heq (conf_ne_log w (uint64ToBytes i))

theorem log_pre_conf_false (w : Bytes) : dbLogs.isPrefixOf (dbConf ++ w) = false := by
  cases hx : dbLogs.isPrefixOf (dbConf ++ w) with
  | false => rfl
  | true =>
    rcases isPrefixOf_exists hx with ⟨t, ht⟩
    exact absurd ht (conf_ne_log w t)

theorem filter_log_entries (s : Store) (hwf : StoreWF s) :
    s.dropWhile (fun e => lexLt e.1 dbLogs) = s.filter (fun e => isLogKeyB e.1) := by
  obtain ⟨hsort, hshape⟩ := hwf
  have hp := keysSortedB_pairwise hsort
  rw [dropWhile_eq_filter_sorted _ s hp (fun a b hab hb => lexLt_trans hab hb)]
  refine List.filter_congr ?_
  intro e he
  rcases hshape e he with h | h
  · rcases isLogKeyB_iff.mp h with ⟨i, hi, hk⟩
    rw [h, hk, logKey_def, logs_key_not_lt_dbLogs]
    rfl
  · rcases isPrefixOf_exists (h : dbConf.isPrefixOf e.1 = true) with ⟨w, hw⟩
    rw [hw, conf_lt_dbLogs, isLogKeyB_conf_false]
    rfl

theorem logIndices_pairwise (s : Store) (hwf : StoreWF s) :
    (logIndices s).Pairwise (fun a b => a < b) := by
  have hp : (s.filter (fun e => isLogKeyB e.1)).Pairwise
      (fun a b => lexLt a.1 b.1 = true) :=
    (keysSortedB_pairwise hwf.1).sublist (List.filter_sublist s)
  rw [logIndices, List.pairwise_map]
  refine hp.imp_of_mem ?_
  intro a b ha hb hab
  have hfa := List.mem_filter.mp ha
  have hfb := List.mem_filter.mp hb
  rcases isLogKeyB_iff.mp hfa.2 with ⟨i, hi, hia⟩
  rcases isLogKeyB_iff.mp hfb.2 with ⟨j, hj, hjb⟩
  rw [hia, hjb] at hab
  rw [hia, hjb, idxKey_logKey i hi, idxKey_logKey j hj]
  rw [lexLt_logKey i j hi hj] at hab
  exact of_decide_eq_true hab

theorem takeWhile_le_end (s : Store) (hwf : StoreWF s)
    (hsmall : ∀ i ∈ logIndices s, i < 255 * 2 ^ 56) :
    s.takeWhile (fun e => lexLe e.1 (End dbLogs)) = s := by
  obtain ⟨hsort, hshape⟩ := hwf
  rw [takeWhile_eq_filter_sorted _ s (keysSortedB_pairwise hsort) ?_]
  · refine List.filter_eq_self.mpr ?_
    intro e he
    rcases hshape e he with h | h
    · rcases isLogKeyB_iff.mp h with ⟨i, hi, hk⟩
      have hmem : i ∈ logIndices s := by
        rw [logIndices]
        refine List.mem_map.mpr ⟨e, List.mem_filter.mpr ⟨he, h⟩, ?_⟩
        rw [hk, idxKey_logKey i hi]
      have hlt := hsmall i hmem
      rw [hk]
      refine lexLe_of_lexLt ?_
      rw [logKey_def, End, lexLt_append_left]
      simp only [uint64ToBytes, lexLt, Bool.or_eq_true, Bool.and_eq_true,
        decide_eq_true_eq]
      exact Or.inl (by omega)
    · rcases isPrefixOf_exists (h : dbConf.isPrefixOf e.1 = true) with ⟨w, hw⟩
      rw [hw, End]
      exact lexLe_of_lexLt (conf_lt_logs w [255])
  · intro a b hab hb
    rw [lexLe, Bool.not_eq_true'] at hb ⊢
    by_contra hc
    rw [Bool.not_eq_false] at hc
    rw [lexLt_trans hc hab] at hb
    cases hb

theorem pairwise_getLast_rel {R : Bytes × Bytes → Bytes × Bytes → Prop} :
    ∀ (s : Store), s.Pairwise R → ∀ eL, s.getLast? = some eL →
      ∀ x ∈ s, x = eL ∨ R x eL := by
  intro s
  induction s with
  | nil => intro _ eL h; cases h
  | cons a rest ih =>
    intro hp eL hL x hx
    cases rest with
    | nil =>
      rcases List.mem_singleton.mp hx with rfl
      cases hL
      exact Or.inl rfl
    | cons b rest' =>
      rw [List.getLast?_cons_cons] at hL
      rcases List.mem_cons.mp hx with rfl | hx'
      · right
        have hmem : eL ∈ b :: rest' := by
          rcases List.mem_getLast?_eq_getLast hL with ⟨hne, heq⟩
          rw [heq]
          exact List.getLast_mem hne
        exact List.rel_of_pairwise_cons hp hmem
      · exact ih (List.Pairwise.of_cons hp) eL hL x hx'

theorem firstIndex_eq_nil {s : Store}
    (h : s.dropWhile (fun e => lexLt e.1 dbLogs) = []) :
    firstIndex s = some 0 := by
  rw [firstIndex, h]

theorem firstIndex_eq_cons {s : Store} {e : Bytes × Bytes}
    {rest : List (Bytes × Bytes)}
    (h : s.dropWhile (fun e => lexLt e.1 dbLogs) = e :: rest) :
    firstIndex s =
      if dbLogs.isPrefixOf e.1 then bytesToUint64 (e.1.drop 4) else some 0 := by
  rw [firstIndex, h]

theorem lastIndex_eq_none {s : Store}
    (h : (s.takeWhile (fun e => lexLe e.1 (End dbLogs))).getLast? = none) :
    lastIndex s = some 0 := by
  rw [lastIndex, h]

theorem lastIndex_eq_some {s : Store} {e : Bytes × Bytes}
    (h : (s.takeWhile (fun e => lexLe e.1 (End dbLogs))).getLast? = some e) :
    lastIndex s =
      if dbLogs.isPrefixOf e.1 then bytesToUint64 (e.1.drop 4) else some 0 := by
  rw [lastIndex, h]

/-- C2 (counterexample): a store holding exactly one log record, at
index `0xFF00000000000000`, is well formed, yet `LastIndex` returns 0
rather than the maximum stored index: the reverse seek starts at
`End("logs") = "logs" ++ [0xFF]`, which sorts before that record's key,
so the record is never visited. -/
theorem c2_counterexample :
    StoreWF [(logKey (255 * 2 ^ 56), [1])] ∧
    logIndices [(logKey (255 * 2 ^ 56), [1])] = [255 * 2 ^ 56] ∧
    lastIndex [(logKey (255 * 2 ^ 56), [1])] = some 0 ∧
    (0 : Nat) ≠ 255 * 2 ^ 56 := by
  refine ⟨⟨by decide, ?_⟩, by decide, by decide, by decide⟩
  decide

/-- C2 (amended): on a well-formed store all of whose stored log
indices are below `0xFF * 2^56` (so that every "logs" key sorts before
`End("logs")`), `FirstIndex` returns the minimum stored index,
`LastIndex` the maximum, and both return 0 when no log records are
stored. -/
theorem c2_first_last_minmax_amended (s : Store) (hwf : StoreWF s)
    (hsmall : ∀ i ∈ logIndices s, i < 255 * 2 ^ 56) :
    ∃ f l, firstIndex s = some f ∧ lastIndex s = some l ∧
      (logIndices s = [] → f = 0 ∧ l = 0) ∧
      (logIndices s ≠ [] → f ∈ logIndices s ∧ l ∈ logIndices s ∧
        ∀ i ∈ logIndices s, f ≤ i ∧ i ≤ l) := by
  have hfl := filter_log_entries s hwf
  have hlast := takeWhile_le_end s hwf hsmall
  have hpairIdx := logIndices_pairwise s hwf
  have hpairLex := keysSortedB_pairwise hwf.1
  cases hFc : s.filter (fun e => isLogKeyB e.1) with
  | nil =>
    have hIdxNil : logIndices s = [] := by
      rw [logIndices, hFc]
      rfl
    have hfirst : firstIndex s = some 0 := by
      rw [firstIndex, hfl, hFc]
    have hlastv : lastIndex s = some 0 := by
      cases hgl : s.getLast? with
      | none => exact lastIndex_eq_none (by rw [hlast, hgl])
      | some e =>
        have hmem : e ∈ s := by
          rcases List.mem_getLast?_eq_getLast hgl with ⟨hne, heq⟩
          rw [heq]
          exact List.getLast_mem hne
        rcases hwf.2 e hmem with h | h
        · exfalso
          have : e ∈ s.filter (fun e => isLogKeyB e.1) :=
            List.mem_filter.mpr ⟨hmem, h⟩
          rw [hFc] at this
          cases this
        · rcases isPrefixOf_exists (h : dbConf.isPrefixOf e.1 = true) with ⟨w, hw⟩
          rw [lastIndex_eq_some (by rw [hlast, hgl]), hw, log_pre_conf_false]
          rfl
    exact ⟨0, 0, hfirst, hlastv, fun _ => ⟨rfl, rfl⟩, fun hne => absurd hIdxNil hne⟩
  | cons e F' =>
    have heF : e ∈ s.filter (fun e => isLogKeyB e.1) := by
      rw [hFc]; exact List.mem_cons_self e F'
    have heS : e ∈ s := (List.mem_filter.mp heF).1
    rcases isLogKeyB_iff.mp (List.mem_filter.mp heF).2 with ⟨i, hi, hk⟩
    have hfirst : firstIndex s = some i := by
      rw [firstIndex_eq_cons (hfl.trans hFc), hk, logKey_def, isPrefixOf_append]
      simp only [if_true]
      have hdr : (dbLogs ++ uint64ToBytes i).drop 4 = uint64ToBytes i := rfl
      rw [hdr, bytesToUint64_uint64ToBytes i hi]
    have hsne : s ≠ [] := by
      intro hnil
      rw [hnil] at heS
      cases heS
    obtain ⟨eL, hgl⟩ : ∃ eL, s.getLast? = some eL := by
      cases hgl : s.getLast? with
      | none => exact absurd (List.getLast?_eq_none_iff.mp hgl) hsne
      | some e' => exact ⟨e', rfl⟩
    have hLmem : eL ∈ s := by
      rcases List.mem_getLast?_eq_getLast hgl with ⟨hne, heq⟩
      rw [heq]
      exact List.getLast_mem hne
    have hLlog : isLogKeyB eL.1 = true := by
      rcases hwf.2 eL hLmem with h | h
      · exact h
      · exfalso
        rcases isPrefixOf_exists (h : dbConf.isPrefixOf eL.1 = true) with ⟨w, hw⟩
        rcases pairwise_getLast_rel s hpairLex eL hgl e heS with heq | hlt
        · rw [heq, hw, logKey_def] at hk
          exact conf_ne_log w (uint64ToBytes i) hk
        · rw [hk, hw, logKey_def] at hlt
          rw [lexLt_asymm (conf_lt_logs w (uint64ToBytes i))] at hlt
          cases hlt
    rcases isLogKeyB_iff.mp hLlog with ⟨m, hm, hkL⟩
    have hlastv : lastIndex s = some m := by
      rw [lastIndex_eq_some (by rw [hlast, hgl]), hkL, logKey_def,
        isPrefixOf_append]
      simp only [if_true]
      have hdr : (dbLogs ++ uint64ToBytes m).drop 4 = uint64ToBytes m := rfl
      rw [hdr, bytesToUint64_uint64ToBytes m hm]
    have hiI : i ∈ logIndices s := by
      rw [logIndices]
      refine List.mem_map.mpr ⟨e, heF, ?_⟩
      rw [hk, idxKey_logKey i hi]
    have hmI : m ∈ logIndices s := by
      rw [logIndices]
      refine List.mem_map.mpr ⟨eL, List.mem_filter.mpr ⟨hLmem, hLlog⟩, ?_⟩
      rw [hkL, idxKey_logKey m hm]
    refine ⟨i, m, hfirst, hlastv, ?_, ?_⟩
    · intro hnil
      rw [hnil] at hiI
      cases hiI
    · intro _
      refine ⟨hiI, hmI, ?_⟩
      intro j hj
      rcases List.mem_map.mp hj with ⟨e', he'F, hje'⟩
      have he'S : e' ∈ s := (List.mem_filter.mp he'F).1
      rcases isLogKeyB_iff.mp (List.mem_filter.mp he'F).2 with ⟨j', hj', hk'⟩
      have hjj' : j = j' := by
        rw [← hje', hk', idxKey_logKey j' hj']
      constructor
      · rcases List.mem_cons.mp (hFc ▸ he'F) with heq | hmem'
        · have hji : j' = i := by
            refine logKey_inj hj' hi ?_
            rw [← hk', heq, hk]
          omega
        · have hrel : lexLt e.1 e'.1 = true := by
            have hpF : (s.filter (fun x => isLogKeyB x.1)).Pairwise
                (fun a b => lexLt a.1 b.1 = true) :=
              hpairLex.sublist (List.filter_sublist s)
            rw [hFc] at hpF
            exact List.rel_of_pairwise_cons hpF hmem'
          rw [hk, hk', lexLt_logKey i j' hi hj'] at hrel
          have := of_decide_eq_true hrel
          omega
      · rcases pairwise_getLast_rel s hpairLex eL hgl e' he'S with heq | hlt
        · have hjm : j' = m := by
            refine logKey_inj hj' hm ?_
            rw [← hk', heq, hkL]
          omega
        · rw [hk', hkL, lexLt_logKey j' m hj' hm] at hlt
          have := of_decide_eq_true hlt
          omega

theorem c2_first_last_minmax_amended_witness :
    ∃ f l, firstIndex [(logKey 1, [1]), (logKey 3, [2])] = some f ∧
      lastIndex [(logKey 1, [1]), (logKey 3, [2])] = some l ∧
      (logIndices [(logKey 1, [1]), (logKey 3, [2])] = [] → f = 0 ∧ l = 0) ∧
      (logIndices [(logKey 1, [1]), (logKey 3, [2])] ≠ [] →
        f ∈ logIndices [(logKey 1, [1]), (logKey 3, [2])] ∧
        l ∈ logIndices [(logKey 1, [1]), (logKey 3, [2])] ∧
        ∀ i ∈ logIndices [(logKey 1, [1]), (logKey 3, [2])], f ≤ i ∧ i ≤ l) :=
  c2_first_last_minmax_amended [(logKey 1, [1]), (logKey 3, [2])]
    ⟨by decide, by decide⟩ (by decide)

/-- The inner iteration of one `DeleteRange` batch from
`badger_store.go`: for each visited key, remember it as `lastKey`, stop
when its decoded index exceeds `max`, otherwise delete it (buffered in
`dels`) and stop once the batch size is reached.  Returns the count of
deletions, the last visited key and the deleted keys; `none` models the
decode panic on a malformed key. -/
def batchLoop (batchSize maxIdx : Nat) :
    List Bytes → Nat → Option Bytes → List Bytes →
    Option (Nat × Option Bytes × List Bytes)
  | [], count, lastKey, dels => some (count, lastKey, dels)
  | k :: rest, count, _, dels =>
    match bytesToUint64 (k.drop 4) with
    | none => none
    | some idx =>
      if maxIdx < idx then some (count, some k, dels)
      else
        if batchSize ≤ count + 1 then some (count + 1, some k, k :: dels)
        else batchLoop batchSize maxIdx rest (count + 1) (some k) (k :: dels)

/-- The keys one batch iterates over: the iterator seeks to the first
key at or after the cursor and walks forward while keys carry the
"logs" namespace (`it.Seek(minKey); it.ValidForPrefix(dbLogs)`). -/
def batchKeys (minKey : Bytes) (s : Store) : List Bytes :=
  ((s.dropWhile (fun e => lexLt e.1 minKey)).takeWhile
    (fun e => dbLogs.isPrefixOf e.1)).map (fun e => e.1)

/-- One `DeleteRange` batch transaction started at the cursor. -/
def deleteBatch (batchSize maxIdx : Nat) (minKey : Bytes) (s : Store) :
    Option (Nat × Option Bytes × List Bytes) :=
  batchLoop batchSize maxIdx (batchKeys minKey s) 0 none []

/-- Committing a batch removes every key deleted in its transaction. -/
def commitDeletes (dels : List Bytes) (s : Store) : Store :=
  s.filter (fun e => !(decide (e.1 ∈ dels)))

/-- The outer loop of `DeleteRange`: run a batch from the cursor; a
batch with zero deletions terminates the loop with the store unchanged
by it, otherwise the batch commits and the cursor advances to the last
visited key with a zero byte appended (`minKey = append(lastKey, 0)`).
The fuel bounds the iterations; `s.length + 1` always suffices because
every committed batch deletes at least one key. -/
def deleteRangeLoop (batchSize maxIdx : Nat) :
    Nat → Bytes → Store → Option Store
  | 0, _, _ => none
  | fuel + 1, minKey, s =>
    match deleteBatch batchSize maxIdx minKey s with
    | none => none
    | some (count, lastKey, dels) =>
      if count = 0 then some s
      else
        match lastKey with
        | none => none
        | some lk =>
          deleteRangeLoop batchSize maxIdx fuel (lk ++ [0]) (commitDeletes dels s)

/-- `DeleteRange` from `badger_store.go`, generalized over the batch
size constant. -/
def deleteRangeWith (batchSize minIdx maxIdx : Nat) (s : Store) : Option Store :=
  deleteRangeLoop batchSize maxIdx (s.length + 1)
    (addPrefix dbLogs (uint64ToBytes minIdx)) s

/-- `DeleteRange` with the source's batch size constant of 100. -/
def deleteRange (minIdx maxIdx : Nat) (s : Store) : Option Store :=
  deleteRangeWith 100 minIdx maxIdx s

/-- The keys of a batch's iteration whose index does not exceed the
bound: the deletable ones. -/
def keepIdx (maxIdx : Nat) (keys : List Bytes) : List Bytes :=
  keys.takeWhile (fun k => decide (idxKey k ≤ maxIdx))

/-- The keys one batch actually deletes: the deletable ones up to the
remaining batch capacity. -/
def batchTake (batchSize count maxIdx : Nat) (keys : List Bytes) : List Bytes :=
  (keepIdx maxIdx keys).take (batchSize - count)

theorem batchLoop_spec (bs maxIdx : Nat) :
    ∀ (keys : List Bytes) (count : Nat) (lastKey : Option Bytes)
      (dels : List Bytes),
    (∀ k ∈ keys, ∃ i, i < 2 ^ 64 ∧ k = logKey i) →
    keys.Pairwise (fun a b => lexLt a b = true) →
    count < bs →
    ∃ cnt lk dl, batchLoop bs maxIdx keys count lastKey dels = some (cnt, lk, dl) ∧
      dl = (batchTake bs count maxIdx keys).reverse ++ dels ∧
      cnt = count + (batchTake bs count maxIdx keys).length ∧
      (keepIdx maxIdx keys = [] →
        (keys = [] → lk = lastKey) ∧
        (∀ h t, keys = h :: t → lk = some h ∧ maxIdx < idxKey h)) ∧
      (keepIdx maxIdx keys ≠ [] →
        ∃ l, lk = some l ∧ l ∈ keys ∧
          (∀ k ∈ batchTake bs count maxIdx keys, lexLe k l = true) ∧
          (∀ k ∈ keys, idxKey k ≤ maxIdx → lexLe k l = true →
            k ∈ batchTake bs count maxIdx keys)) := by
  intro keys
  induction keys with
  | nil =>
    intro count lastKey dels hshape hsort hcb
    refine ⟨count, lastKey, dels, rfl, ?_, ?_, ?_, ?_⟩
    · simp [batchTake, keepIdx]
    · simp [batchTake, keepIdx]
    · exact fun _ => ⟨fun _ => rfl, fun h t ht => absurd ht (by simp)⟩
    · exact fun h => absurd rfl h
  | cons k rest ih =>
    intro count lastKey dels hshape hsort hcb
    obtain ⟨i, hi, hki⟩ := hshape k (List.mem_cons_self k rest)
    have hdec : bytesToUint64 (k.drop 4) = some i := by
      rw [hki, logKey_drop, bytesToUint64_uint64ToBytes i hi]
    have hidxk : idxKey k = i := by rw [hki, idxKey_logKey i hi]
    by_cases hmax : maxIdx < i
    · have hTnil : keepIdx maxIdx (k :: rest) = [] := by
        simp only [keepIdx, List.takeWhile_cons]
        simp [hidxk, Nat.not_le.mpr hmax]
      have hbt : batchTake bs count maxIdx (k :: rest) = [] := by
        rw [batchTake, hTnil]
        simp
      refine ⟨count, some k, dels, ?_, ?_, ?_, ?_, ?_⟩
      · simp only [batchLoop, hdec]
        rw [if_pos hmax]
      · rw [hbt]
        rfl
      · rw [hbt]
        rfl
      · intro _
        refine ⟨fun h => absurd h (by simp), ?_⟩
        intro h t ht
        have hkh : k = h := by injection ht
        subst hkh
        exact ⟨rfl, by rw [hidxk]; exact hmax⟩
      · intro hne
        exact absurd hTnil hne
    · have hile : i ≤ maxIdx := Nat.not_lt.mp hmax
      have hT : keepIdx maxIdx (k :: rest) = k :: keepIdx maxIdx rest := by
        simp only [keepIdx, List.takeWhile_cons]
        simp [hidxk, hile]
      by_cases hcap : bs ≤ count + 1
      · have hbt : batchTake bs count maxIdx (k :: rest) = [k] := by
          rw [batchTake, hT]
          have hbc : bs - count = 1 := by omega
          rw [hbc]
          rfl
        refine ⟨count + 1, some k, k :: dels, ?_, ?_, ?_, ?_, ?_⟩
        · simp only [batchLoop, hdec]
          rw [if_neg hmax, if_pos hcap]
        · rw [hbt]
          rfl
        · rw [hbt]
          rfl
        · intro hTnil
          rw [hT] at hTnil
          simp at hTnil
        · intro _
          refine ⟨k, rfl, List.mem_cons_self k rest, ?_, ?_⟩
          · intro k' hk'
            rw [hbt] at hk'
            rcases List.mem_singleton.mp hk' with rfl
            exact lexLe_refl _
          · intro k' hk'mem hk'idx hk'le
            rw [hbt]
            rcases List.mem_cons.mp hk'mem with rfl | hk'rest
            · exact List.mem_singleton.mpr rfl
            · exfalso
              have hlt := List.rel_of_pairwise_cons hsort hk'rest
              rw [lexLe, hlt] at hk'le
              simp at hk'le
      · have hc1 : count + 1 < bs := by omega
        obtain ⟨cnt, lk, dl, hrun, hdl, hcnt, hTnilrec, hTnerec⟩ :=
          ih (count + 1) (some k) (k :: dels)
            (fun k' hk' => hshape k' (List.mem_cons_of_mem k hk'))
            (List.Pairwise.of_cons hsort) hc1
        have hbt : batchTake bs count maxIdx (k :: rest) =
            k :: batchTake bs (count + 1) maxIdx rest := by
          rw [batchTake, hT]
          have hsub : bs - count = (bs - (count + 1)) + 1 := by omega
          rw [hsub]
          rfl
        refine ⟨cnt, lk, dl, ?_, ?_, ?_, ?_, ?_⟩
        · simp only [batchLoop, hdec]
          rw [if_neg hmax, if_neg hcap]
          exact hrun
        · rw [hdl, hbt]
          simp
        · rw [hcnt, hbt]
          simp only [List.length_cons]
          omega
        · intro hTnil'
          rw [hT] at hTnil'
          simp at hTnil'
        · intro _
          by_cases hTr : keepIdx maxIdx rest = []
          · have hbt0 : batchTake bs (count + 1) maxIdx rest = [] := by
              rw [batchTake, hTr]
              simp
            obtain ⟨hnil, hcons⟩ := hTnilrec hTr
            cases rest with
            | nil =>
              refine ⟨k, hnil rfl, List.mem_cons_self k [], ?_, ?_⟩
              · intro k' hk'
                rw [hbt, hbt0] at hk'
                rcases List.mem_singleton.mp hk' with rfl
                exact lexLe_refl _
              · intro k' hk'mem hk'idx hk'le
                rw [hbt, hbt0]
                rcases List.mem_singleton.mp hk'mem with rfl
                exact List.mem_singleton.mpr rfl
            | cons h t =>
              obtain ⟨hlk, hhmax⟩ := hcons h t rfl
              refine ⟨h, hlk,
                List.mem_cons_of_mem k (List.mem_cons_self h t), ?_, ?_⟩
              · intro k' hk'
                rw [hbt, hbt0] at hk'
                rcases List.mem_singleton.mp hk' with rfl
                exact lexLe_of_lexLt
                  (List.rel_of_pairwise_cons hsort (List.mem_cons_self h t))
              · intro k' hk'mem hk'idx hk'le
                rw [hbt, hbt0]
                rcases List.mem_cons.mp hk'mem with rfl | hk'rest
                · exact List.mem_singleton.mpr rfl
                · exfalso
                  rcases List.mem_cons.mp hk'rest with rfl | hk't
                  · omega
                  · have hlt := List.rel_of_pairwise_cons
                      (List.Pairwise.of_cons hsort) hk't
                    rw [lexLe, hlt] at hk'le
                    simp at hk'le
          · obtain ⟨l, hlk, hlmem, hA, hB⟩ := hTnerec hTr
            refine ⟨l, hlk, List.mem_cons_of_mem k hlmem, ?_, ?_⟩
            · intro k' hk'
              rw [hbt] at hk'
              rcases List.mem_cons.mp hk' with rfl | hk'X
              · exact lexLe_of_lexLt (List.rel_of_pairwise_cons hsort hlmem)
              · exact hA k' hk'X
            · intro k' hk'mem hk'idx hk'le
              rw [hbt]
              rcases List.mem_cons.mp hk'mem with rfl | hk'rest
              · exact List.mem_cons_self k' _
              · exact List.mem_cons_of_mem k (hB k' hk'rest hk'idx hk'le)

theorem takeWhile_of_all {p : Bytes × Bytes → Bool} :
    ∀ l : List (Bytes × Bytes), (∀ e ∈ l, p e = true) → l.takeWhile p = l := by
  intro l h
  induction l with
  | nil => rfl
  | cons e rest ih =>
    rw [List.takeWhile_cons, if_pos (h e (List.mem_cons_self e rest))]
    rw [ih (fun x hx => h x (List.mem_cons_of_mem e hx))]

theorem batchKeys_eq (c : Bytes) (s : Store) (hwf : StoreWF s)
    (hc : ∃ d, c = dbLogs ++ d) :
    batchKeys c s = (s.filter (fun e => lexLe c e.1)).map (fun e => e.1) := by
  obtain ⟨d, hd⟩ := hc
  have hp := keysSortedB_pairwise hwf.1
  rw [batchKeys,
    dropWhile_eq_filter_sorted _ s hp (fun a b hab hb => lexLt_trans hab hb)]
  have hfe : (s.filter (fun e => !(lexLt e.1 c))) =
      s.filter (fun e => lexLe c e.1) := rfl
  rw [hfe, takeWhile_of_all _ ?_]
  intro e he
  have hmem := List.mem_filter.mp he
  rcases hwf.2 e hmem.1 with h | h
  · rcases isLogKeyB_iff.mp h with ⟨i, hi, hk⟩
    rw [hk, logKey_def]
    exact isPrefixOf_append dbLogs (uint64ToBytes i)
  · exfalso
    rcases isPrefixOf_exists (h : dbConf.isPrefixOf e.1 = true) with ⟨w, hw⟩
    have hlt : lexLt e.1 c = true := by
      rw [hw, hd]
      exact conf_lt_logs w d
    have hle := hmem.2
    rw [lexLe, hlt] at hle
    simp at hle

theorem batchKeys_shape (c : Bytes) (s : Store) (hwf : StoreWF s)
    (hc : ∃ d, c = dbLogs ++ d) :
    ∀ k ∈ batchKeys c s, ∃ i, i < 2 ^ 64 ∧ k = logKey i := by
  obtain ⟨d, hd⟩ := hc
  intro k hk
  rw [batchKeys_eq c s hwf ⟨d, hd⟩] at hk
  rcases List.mem_map.mp hk with ⟨e, he, hek⟩
  have hmem := List.mem_filter.mp he
  rcases hwf.2 e hmem.1 with h | h
  · rcases isLogKeyB_iff.mp h with ⟨i, hi, hik⟩
    exact ⟨i, hi, by rw [← hek, hik]⟩
  · exfalso
    rcases isPrefixOf_exists (h : dbConf.isPrefixOf e.1 = true) with ⟨w, hw⟩
    have hlt : lexLt e.1 c = true := by
      rw [hw, hd]
      exact conf_lt_logs w d
    have hle := hmem.2
    rw [lexLe, hlt] at hle
    simp at hle

theorem batchKeys_sorted (c : Bytes) (s : Store) (hwf : StoreWF s)
    (hc : ∃ d, c = dbLogs ++ d) :
    (batchKeys c s).Pairwise (fun a b => lexLt a b = true) := by
  rw [batchKeys_eq c s hwf hc, List.pairwise_map]
  exact ((keysSortedB_pairwise hwf.1).sublist (List.filter_sublist s)).imp
    (fun h => h)

theorem batchKeys_mem (c : Bytes) (s : Store) (hwf : StoreWF s)
    (hc : ∃ d, c = dbLogs ++ d) (k : Bytes) :
    k ∈ batchKeys c s ↔ ∃ e ∈ s, e.1 = k ∧ lexLe c k = true := by
  rw [batchKeys_eq c s hwf hc]
  constructor
  · intro hk
    rcases List.mem_map.mp hk with ⟨e, he, hek⟩
    have hmem := List.mem_filter.mp he
    exact ⟨e, hmem.1, hek, by rw [← hek]; exact hmem.2⟩
  · rintro ⟨e, he, hek, hle⟩
    exact List.mem_map.mpr ⟨e, List.mem_filter.mpr ⟨he, by rw [hek]; exact hle⟩, hek⟩

theorem pairwise_keysSortedB :
    ∀ {s : Store}, s.Pairwise (fun a b => lexLt a.1 b.1 = true) →
    keysSortedB s = true := by
  intro s
  induction s with
  | nil => intro _; rfl
  | cons a rest ih =>
    intro hp
    cases rest with
    | nil => rfl
    | cons b r' =>
      have h1 : lexLt a.1 b.1 = true :=
        List.rel_of_pairwise_cons hp (List.mem_cons_self b r')
      have h2 := ih (List.Pairwise.of_cons hp)
      simp [keysSortedB, h1, h2]

theorem lexLe_append_zero (a b : Bytes) : lexLe (a ++ [0]) b = lexLt a b := by
  rw [lexLe, lexLt_append_zero, Bool.not_not]

/-- DeleteRange's deletion condition: a "logs" key whose index lies in
the still-unprocessed part of the range. -/
def delCond (t maxIdx : Nat) (e : Bytes × Bytes) : Bool :=
  isLogKeyB e.1 && decide (t ≤ idxKey e.1) && decide (idxKey e.1 ≤ maxIdx)

theorem deleteRangeLoop_step_zero (bs maxIdx fuel : Nat) (c : Bytes)
    (s : Store) (lk : Option Bytes) (dl : List Bytes)
    (h : deleteBatch bs maxIdx c s = some (0, lk, dl)) :
    deleteRangeLoop bs maxIdx (fuel + 1) c s = some s := by
  simp only [deleteRangeLoop]
  rw [h]
  rfl

theorem deleteRangeLoop_step_go (bs maxIdx fuel : Nat) (c : Bytes)
    (s : Store) (cnt : Nat) (lkk : Bytes) (dl : List Bytes)
    (h : deleteBatch bs maxIdx c s = some (cnt + 1, some lkk, dl)) :
    deleteRangeLoop bs maxIdx (fuel + 1) c s =
      deleteRangeLoop bs maxIdx fuel (lkk ++ [0]) (commitDeletes dl s) := by
  simp only [deleteRangeLoop]
  rw [h]
  rfl

theorem deleteRangeLoop_spec (bs maxIdx : Nat) (hbs : 1 ≤ bs) :
    ∀ (fuel : Nat) (s : Store) (c : Bytes) (t : Nat),
    StoreWF s → (∃ d, c = dbLogs ++ d) →
    (∀ j, j < 2 ^ 64 → (lexLe c (logKey j) = true ↔ t ≤ j)) →
    s.length < fuel →
    deleteRangeLoop bs maxIdx fuel c s =
      some (s.filter (fun e => !(delCond t maxIdx e))) := by
  intro fuel
  induction fuel with
  | zero =>
    intro s c t _ _ _ hlen
    omega
  | succ fuel ih =>
    intro s c t hwf hc hreal hlen
    obtain ⟨cnt, lk, dl, hrun, hdl, hcnt, hTnil, hTne⟩ :=
      batchLoop_spec bs maxIdx (batchKeys c s) 0 none []
        (batchKeys_shape c s hwf hc) (batchKeys_sorted c s hwf hc) (by omega)
    rw [List.append_nil] at hdl
    have hDB : deleteBatch bs maxIdx c s = some (cnt, lk, dl) := hrun
    have hsub1 : List.Sublist (batchTake bs 0 maxIdx (batchKeys c s))
        (keepIdx maxIdx (batchKeys c s)) := List.take_sublist _ _
    have hsub2 : List.Sublist (keepIdx maxIdx (batchKeys c s))
        (batchKeys c s) := List.takeWhile_sublist _
    by_cases hcnt0 : cnt = 0
    · rw [hcnt0] at hDB
      rw [deleteRangeLoop_step_zero bs maxIdx fuel c s lk dl hDB]
      congr 1
      have hbt0 : batchTake bs 0 maxIdx (batchKeys c s) = [] := by
        refine List.length_eq_zero.mp ?_
        omega
      have hT0 : keepIdx maxIdx (batchKeys c s) = [] := by
        rcases List.take_eq_nil_iff.mp hbt0 with h | h
        · omega
        · exact h
      refine (List.filter_eq_self.mpr ?_).symm
      intro e he
      rw [Bool.not_eq_true']
      by_contra hcond
      rw [Bool.not_eq_false] at hcond
      simp only [delCond, Bool.and_eq_true, decide_eq_true_eq] at hcond
      obtain ⟨⟨hlog, hti⟩, him⟩ := hcond
      rcases isLogKeyB_iff.mp hlog with ⟨ie, hie, hke⟩
      have hkeidx : idxKey e.1 = ie := by rw [hke, idxKey_logKey ie hie]
      rw [hkeidx] at hti him
      have hkmem : e.1 ∈ batchKeys c s := by
        refine (batchKeys_mem c s hwf hc e.1).mpr ⟨e, he, rfl, ?_⟩
        rw [hke]
        exact (hreal ie hie).mpr hti
      cases hK : batchKeys c s with
      | nil =>
        rw [hK] at hkmem
        cases hkmem
      | cons h tl =>
        obtain ⟨ihd, hihd, hkh⟩ := batchKeys_shape c s hwf hc h
          (by rw [hK]; exact List.mem_cons_self h tl)
        have hhidx : idxKey h = ihd := by rw [hkh, idxKey_logKey ihd hihd]
        have hpred : ¬ (idxKey h ≤ maxIdx) := by
          intro hp
          rw [hK, keepIdx, List.takeWhile_cons] at hT0
          simp [hp] at hT0
        rw [hhidx] at hpred
        rw [hK] at hkmem
        rcases List.mem_cons.mp hkmem with heq | hmem'
        · have hei : ihd = ie := by
            refine logKey_inj hihd hie ?_
            rw [← hkh, ← heq, hke]
          omega
        · have hsorted := batchKeys_sorted c s hwf hc
          rw [hK] at hsorted
          have hlt := List.rel_of_pairwise_cons hsorted hmem'
          rw [hkh, hke, lexLt_logKey ihd ie hihd hie] at hlt
          have := of_decide_eq_true hlt
          omega
    · have hTne' : keepIdx maxIdx (batchKeys c s) ≠ [] := by
        intro h0
        apply hcnt0
        rw [hcnt, batchTake, h0]
        simp
      obtain ⟨l, hlk, hlmem, hA, hB⟩ := hTne hTne'
      obtain ⟨li, hli, hlkey⟩ := batchKeys_shape c s hwf hc l hlmem
      have hbtne : batchTake bs 0 maxIdx (batchKeys c s) ≠ [] := by
        intro h0
        apply hcnt0
        rw [hcnt, h0]
        simp
      obtain ⟨k0, hk0⟩ := List.exists_mem_of_ne_nil _ hbtne
      have hk0dl : k0 ∈ dl := by
        rw [hdl]
        exact List.mem_reverse.mpr hk0
      have hk0keys : k0 ∈ batchKeys c s :=
        List.Sublist.mem hk0 (hsub1.trans hsub2)
      obtain ⟨e0, he0s, he0k, he0le⟩ := (batchKeys_mem c s hwf hc k0).mp hk0keys
      obtain ⟨m, hm⟩ : ∃ m, cnt = m + 1 := ⟨cnt - 1, by omega⟩
      rw [hm, hlk] at hDB
      rw [deleteRangeLoop_step_go bs maxIdx fuel c s m l dl hDB]
      have hwf' : StoreWF (commitDeletes dl s) := by
        constructor
        · exact pairwise_keysSortedB
            ((keysSortedB_pairwise hwf.1).sublist (List.filter_sublist s))
        · intro e he
          exact hwf.2 e (List.mem_filter.mp he).1
      have hc' : ∃ d', l ++ [0] = dbLogs ++ d' := by
        refine ⟨uint64ToBytes li ++ [0], ?_⟩
        rw [hlkey, logKey_def, List.append_assoc]
      have hreal' : ∀ j, j < 2 ^ 64 →
          (lexLe (l ++ [0]) (logKey j) = true ↔ li + 1 ≤ j) := by
        intro j hj
        rw [lexLe_append_zero, hlkey, lexLt_logKey li j hli hj]
        simp only [decide_eq_true_eq]
        omega
      have hlen' : (commitDeletes dl s).length < fuel := by
        have hrem : (commitDeletes dl s).length < s.length := by
          rw [commitDeletes]
          refine List.length_filter_lt_length_iff_exists.mpr ?_
          exact ⟨e0, he0s, by simp [he0k, hk0dl]⟩
        omega
      rw [ih (commitDeletes dl s) (l ++ [0]) (li + 1) hwf' hc' hreal' hlen']
      congr 1
      rw [commitDeletes, List.filter_filter]
      refine List.filter_congr ?_
      intro e he
      have hdlshape : ∀ k ∈ dl, ∃ i, i < 2 ^ 64 ∧ k = logKey i := by
        intro k hk
        rw [hdl] at hk
        exact batchKeys_shape c s hwf hc k
          (List.Sublist.mem (List.mem_reverse.mp hk) (hsub1.trans hsub2))
      have key : delCond t maxIdx e =
          (decide (e.1 ∈ dl) || delCond (li + 1) maxIdx e) := by
        rcases hwf.2 e he with hlog | hconf
        · rcases isLogKeyB_iff.mp hlog with ⟨ie, hie, hke⟩
          have hkeidx : idxKey e.1 = ie := by rw [hke, idxKey_logKey ie hie]
          rw [Bool.eq_iff_iff]
          simp only [delCond, hlog, hkeidx, Bool.true_and, Bool.and_eq_true,
            Bool.or_eq_true, decide_eq_true_eq]
          constructor
          · rintro ⟨hti, him⟩
            have hkmem : e.1 ∈ batchKeys c s := by
              refine (batchKeys_mem c s hwf hc e.1).mpr ⟨e, he, rfl, ?_⟩
              rw [hke]
              exact (hreal ie hie).mpr hti
            by_cases hle : lexLe e.1 l = true
            · left
              rw [hdl]
              refine List.mem_reverse.mpr ?_
              exact hB e.1 hkmem (by rw [hkeidx]; exact him) hle
            · right
              have hle' : lexLe e.1 l = false := by
                rw [Bool.eq_false_iff]
                exact hle
              have hll := lexLt_of_not_lexLe hle'
              rw [hlkey, hke, lexLt_logKey li ie hli hie] at hll
              have hlt := of_decide_eq_true hll
              exact ⟨by omega, him⟩
          · rintro (hmem | ⟨hti, him⟩)
            · rw [hdl] at hmem
              have hbt := List.mem_reverse.mp hmem
              have hkeep : e.1 ∈ keepIdx maxIdx (batchKeys c s) :=
                List.Sublist.mem hbt hsub1
              have hpredk : decide (idxKey e.1 ≤ maxIdx) = true := by
                have := List.mem_takeWhile_imp (p := fun k => decide (idxKey k ≤ maxIdx))
                  (by rw [← keepIdx]; exact hkeep)
                exact this
              rw [hkeidx] at hpredk
              have him : ie ≤ maxIdx := of_decide_eq_true hpredk
              have hkeys : e.1 ∈ batchKeys c s := List.Sublist.mem hbt
                (hsub1.trans hsub2)
              obtain ⟨e', he', he'k, hle⟩ := (batchKeys_mem c s hwf hc e.1).mp hkeys
              have hti : t ≤ ie := (hreal ie hie).mp (by rw [← hke]; exact hle)
              exact ⟨hti, him⟩
            · have htli : t ≤ li := by
                obtain ⟨e', he', he'k, hle⟩ := (batchKeys_mem c s hwf hc l).mp hlmem
                exact (hreal li hli).mp (by rw [← hlkey]; exact hle)
              exact ⟨by omega, him⟩
        · rcases isPrefixOf_exists (hconf : dbConf.isPrefixOf e.1 = true) with ⟨w, hw⟩
          have h1 : isLogKeyB e.1 = false := by
            rw [hw]
            exact isLogKeyB_conf_false w
          have h2 : decide (e.1 ∈ dl) = false := by
            simp only [decide_eq_false_iff_not]
            intro hmem
            rcases hdlshape e.1 hmem with ⟨i, hi, hk⟩
            rw [hw] at hk
            exact conf_ne_log w (uint64ToBytes i) hk
          simp [delCond, h1, h2]
      rw [key, Bool.not_or]
      exact Bool.and_comm _ _

theorem initial_realizes (minIdx : Nat) (hmin : minIdx < 2 ^ 64) :
    ∀ j, j < 2 ^ 64 →
      (lexLe (logKey minIdx) (logKey j) = true ↔ minIdx ≤ j) := by
  intro j hj
  rw [lexLe, lexLt_logKey j minIdx hj hmin]
  simp only [Bool.not_eq_true', decide_eq_false_iff_not]
  omega

theorem getKV_filter_none {p : Bytes × Bytes → Bool} {k : Bytes} :
    ∀ {s : Store}, (∀ e ∈ s, e.1 = k → p e = false) →
    getKV k (s.filter p) = none := by
  intro s
  induction s with
  | nil => intro _; rfl
  | cons e rest ih =>
    intro h
    rw [List.filter_cons]
    by_cases hp : p e = true
    · rw [if_pos hp]
      have hek : ¬ (e.1 = k) := by
        intro hek
        rw [h e (List.mem_cons_self e rest) hek] at hp
        cases hp
      simp only [getKV, if_neg hek]
      exact ih (fun x hx hxk => h x (List.mem_cons_of_mem e hx) hxk)
    · rw [if_neg hp]
      exact ih (fun x hx hxk => h x (List.mem_cons_of_mem e hx) hxk)

theorem getKV_filter_same {p : Bytes × Bytes → Bool} {k : Bytes} :
    ∀ {s : Store}, (∀ e ∈ s, e.1 = k → p e = true) →
    getKV k (s.filter p) = getKV k s := by
  intro s
  induction s with
  | nil => intro _; rfl
  | cons e rest ih =>
    intro h
    rw [List.filter_cons]
    by_cases hek : e.1 = k
    · rw [if_pos (h e (List.mem_cons_self e rest) hek)]
      simp only [getKV, if_pos hek]
    · by_cases hp : p e = true
      · rw [if_pos hp]
        simp only [getKV, if_neg hek]
        exact ih (fun x hx hxk => h x (List.mem_cons_of_mem e hx) hxk)
      · rw [if_neg hp]
        simp only [getKV, if_neg hek]
        exact ih (fun x hx hxk => h x (List.mem_cons_of_mem e hx) hxk)

/-- C3: DeleteRange with min ≤ max removes exactly the stored log
records with index in [min, max]: afterwards GetLog fails with
NotFound on every index in the range and is unchanged outside it, and
the result is the same for every positive batch size, in particular
the source's 100, independent of the zero-byte cursor-advance rule. -/
theorem c3_deleteRange_correct (s : Store) (minIdx maxIdx bs : Nat)
    (hwf : StoreWF s) (hmin : minIdx < 2 ^ 64) (hbs : 1 ≤ bs)
    (hle : minIdx ≤ maxIdx) :
    ∃ s', deleteRangeWith bs minIdx maxIdx s = some s' ∧
      deleteRange minIdx maxIdx s = some s' ∧
      (∀ dec i, i < 2 ^ 64 → minIdx ≤ i → i ≤ maxIdx →
        getLog dec i s' = GetLogRes.logNotFound) ∧
      (∀ dec i, i < 2 ^ 64 → (i < minIdx ∨ maxIdx < i) →
        getLog dec i s' = getLog dec i s) := by
  have hc : ∃ d, addPrefix dbLogs (uint64ToBytes minIdx) = dbLogs ++ d :=
    ⟨uint64ToBytes minIdx, rfl⟩
  have hreal : ∀ j, j < 2 ^ 64 →
      (lexLe (addPrefix dbLogs (uint64ToBytes minIdx)) (logKey j) = true ↔
        minIdx ≤ j) :=
    initial_realizes minIdx hmin
  refine ⟨s.filter (fun e => !(delCond minIdx maxIdx e)), ?_, ?_, ?_, ?_⟩
  · rw [deleteRangeWith]
    exact deleteRangeLoop_spec bs maxIdx hbs (s.length + 1) s _ minIdx hwf hc
      hreal (by omega)
  · rw [deleteRange, deleteRangeWith]
    exact deleteRangeLoop_spec 100 maxIdx (by omega) (s.length + 1) s _ minIdx
      hwf hc hreal (by omega)
  · intro dec i hi h1 h2
    have hnone : getKV (logKey i)
        (s.filter (fun e => !(delCond minIdx maxIdx e))) = none := by
      refine getKV_filter_none ?_
      intro e he hek
      have hlog : isLogKeyB e.1 = true := isLogKeyB_iff.mpr ⟨i, hi, hek⟩
      have hidx : idxKey e.1 = i := by rw [hek, idxKey_logKey i hi]
      simp [delCond, hlog, hidx, h1, h2]
    simp only [getLog, readLog, hnone]
    rfl
  · intro dec i hi hout
    have hsame : getKV (logKey i)
        (s.filter (fun e => !(delCond minIdx maxIdx e))) =
        getKV (logKey i) s := by
      refine getKV_filter_same ?_
      intro e he hek
      have hidx : idxKey e.1 = i := by rw [hek, idxKey_logKey i hi]
      have hfalse : delCond minIdx maxIdx e = false := by
        simp only [delCond, hidx]
        rcases hout with h | h
        · simp [Nat.not_le.mpr h]
        · simp [Nat.not_le.mpr h]
      simp [hfalse]
    simp only [getLog, readLog, hsame]

theorem c3_deleteRange_correct_witness :
    ∃ s', deleteRangeWith 100 1 2 [(logKey 1, [1]), (logKey 2, [2]), (logKey 3, [3])] = some s' ∧
      deleteRange 1 2 [(logKey 1, [1]), (logKey 2, [2]), (logKey 3, [3])] = some s' ∧
      (∀ dec i, i < 2 ^ 64 → 1 ≤ i → i ≤ 2 →
        getLog dec i s' = GetLogRes.logNotFound) ∧
      (∀ dec i, i < 2 ^ 64 → (i < 1 ∨ 2 < i) →
        getLog dec i s' =
          getLog dec i [(logKey 1, [1]), (logKey 2, [2]), (logKey 3, [3])]) :=
  c3_deleteRange_correct [(logKey 1, [1]), (logKey 2, [2]), (logKey 3, [3])]
    1 2 100 ⟨by decide, by decide⟩ (by omega) (by omega) (by omega)

/-- C9: DeleteRange on an inverted range (min > max) succeeds and
deletes nothing: the first batch's walk stops at once with a zero
count, the loop terminates, and the store — log records and stable
entries alike — is returned unchanged. -/
theorem c9_deleteRange_inverted_noop (s : Store) (minIdx maxIdx : Nat)
    (hwf : StoreWF s) (hmin : minIdx < 2 ^ 64) (hgt : maxIdx < minIdx) :
    deleteRange minIdx maxIdx s = some s := by
  rw [deleteRange, deleteRangeWith]
  have hc : ∃ d, addPrefix dbLogs (uint64ToBytes minIdx) = dbLogs ++ d :=
    ⟨uint64ToBytes minIdx, rfl⟩
  have hreal : ∀ j, j < 2 ^ 64 →
      (lexLe (addPrefix dbLogs (uint64ToBytes minIdx)) (logKey j) = true ↔
        minIdx ≤ j) :=
    initial_realizes minIdx hmin
  rw [deleteRangeLoop_spec 100 maxIdx (by omega) (s.length + 1) s _ minIdx hwf
    hc hreal (by omega)]
  congr 1
  refine List.filter_eq_self.mpr ?_
  intro e he
  rw [Bool.not_eq_true']
  by_contra hcond
  rw [Bool.not_eq_false] at hcond
  simp only [delCond, Bool.and_eq_true, decide_eq_true_eq] at hcond
  omega

theorem c9_deleteRange_inverted_noop_witness :
    deleteRange 7 3 [(confKey [120], [1]), (logKey 5, [9])] =
      some [(confKey [120], [1]), (logKey 5, [9])] :=
  c9_deleteRange_inverted_noop [(confKey [120], [1]), (logKey 5, [9])] 7 3
    ⟨by decide, by decide⟩ (by omega) (by omega)
